import Mathlib

/-!
Verification development for the business-card scanner's contact-field
extraction engine (`extractContactInfo`) and its dual-engine OCR
orchestration (`processImage` together with the remote vision handler).

The JavaScript source is embedded shallowly: strings are lists of
characters, the JavaScript regular expressions are transcribed into a
small regular-expression syntax `RE` evaluated by a backtracking matcher
`matM` with the JavaScript semantics (leftmost match, ordered
alternation, greedy quantifiers), and the stateful orchestration is a
function over explicit remote/local OCR outcomes.
-/

namespace Buzz

/-! ### Character classes -/

/-- JavaScript whitespace (the characters relevant to `trim`, the
whitespace regex class and whitespace collapsing). -/
def isSpaceC (c : Char) : Bool :=
  c == ' ' || c == '\t' || c == '\n' || c == '\r' || c == '\x0b' || c == '\x0c'

/-- JavaScript word characters `[A-Za-z0-9_]`. -/
def isWordC (c : Char) : Bool := c.isAlphanum || c == '_'

/-- `[a-zA-Z]`. -/
def isAlphaC (c : Char) : Bool := c.isAlpha

/-- `[0-9]`. -/
def isDigitC (c : Char) : Bool := c.isDigit

/-- `[a-zA-Z0-9]`. -/
def isAlnumC (c : Char) : Bool := c.isAlphanum

/-- Character range test by code point. -/
def inRangeC (lo hi c : Char) : Bool :=
  Nat.ble lo.toNat c.toNat && Nat.ble c.toNat hi.toNat

/-! ### List-of-character string utilities mirroring the JavaScript ones -/

/-- `hay` begins with `pre0`. -/
def startsL : List Char → List Char → Bool
  | _, [] => true
  | [], _ :: _ => false
  | c :: l, d :: m => c == d && startsL l m

/-- JavaScript `String.prototype.includes`: `sub` occurs contiguously in `hay`. -/
def hasSub (sub : List Char) : List Char → Bool
  | [] => sub.isEmpty
  | c :: t => startsL (c :: t) sub || hasSub sub t

/-- JavaScript `String.prototype.endsWith`. -/
def endsL (hay suf : List Char) : Bool := startsL hay.reverse suf.reverse

/-- JavaScript `String.prototype.toLowerCase` (ASCII). -/
def lowerL (l : List Char) : List Char := l.map Char.toLower

/-- JavaScript `String.prototype.trim`. -/
def trimL (l : List Char) : List Char :=
  ((l.dropWhile isSpaceC).reverse.dropWhile isSpaceC).reverse

mutual
/-- Collapse each run of whitespace into a single space:
`replace(/\s+/g, ' ')`. -/
def collapseWs : List Char → List Char
  | [] => []
  | c :: rest => if isSpaceC c then ' ' :: skipWs rest else c :: collapseWs rest

/-- Helper of `collapseWs`: drop the remainder of a whitespace run. -/
def skipWs : List Char → List Char
  | [] => []
  | c :: rest => if isSpaceC c then skipWs rest else c :: collapseWs rest
end

/-- Is the character `\n` or `\r`? (the line-split separator class). -/
def isNL (c : Char) : Bool := c == '\n' || c == '\r'

mutual
/-- JavaScript `split(/[\n\r]+/)`: split on maximal runs of newline
characters (a leading or trailing run still yields an empty piece). -/
def splitRuns : List Char → List (List Char)
  | [] => [[]]
  | c :: rest =>
    if isNL c then [] :: splitSkip rest
    else
      match splitRuns rest with
      | h :: t => (c :: h) :: t
      | [] => [[c]]

/-- Helper of `splitRuns`: inside a separator run. -/
def splitSkip : List Char → List (List Char)
  | [] => [[]]
  | c :: rest =>
    if isNL c then splitSkip rest
    else
      match splitRuns rest with
      | h :: t => (c :: h) :: t
      | [] => [[c]]
end

/-! ### Regular expressions with JavaScript matching semantics -/

/-- Regular-expression syntax: character classes, sequencing, ordered
alternation, and the counted greedy repetition `rep r min max`
(`max = none` meaning unbounded), which subsumes `?`, `*`, `+` and
`{m,n}`. -/
inductive RE where
  | cls (p : Char → Bool)
  | eps
  | seq (a b : RE)
  | alt (a b : RE)
  | rep (a : RE) (mn : Nat) (mx : Option Nat)

/-- Decrement an optional repetition bound. -/
def decMax : Option Nat → Option Nat
  | none => none
  | some n => some (n - 1)

/-- Backtracking matcher in continuation-passing style, with the
JavaScript semantics: ordered alternation, greedy repetition trying the
longer parse first, a repetition iteration must consume input.  `k`
receives the unconsumed suffix; the fuel bounds the recursion depth and
is chosen large enough at every call site. -/
def matM : Nat → RE → List Char → (List Char → Option (List Char)) → Option (List Char)
  | 0, _, _, _ => none
  | fuel + 1, r, s, k =>
    match r with
    | .eps => k s
    | .cls p =>
      match s with
      | [] => none
      | c :: rest => if p c then k rest else none
    | .seq a b => matM fuel a s (fun s2 => matM fuel b s2 k)
    | .alt a b => (matM fuel a s k).orElse (fun _ => matM fuel b s k)
    | .rep a mn mx =>
      if mx = some 0 then (if mn = 0 then k s else none)
      else if mn = 0 then
        (matM fuel a s (fun s2 =>
          if s2.length < s.length then matM fuel (.rep a (mn - 1) (decMax mx)) s2 k
          else none)).orElse (fun _ => k s)
      else
        matM fuel a s (fun s2 =>
          if s2.length < s.length then matM fuel (.rep a (mn - 1) (decMax mx)) s2 k
          else none)

/-- Try to match `r` at the start of `s`; on success return the consumed
prefix (“group 0”). -/
def matchAt (r : RE) (s : List Char) : Option (List Char) :=
  match matM (s.length + 200) r s (fun rest => some rest) with
  | none => none
  | some rest => some (s.take (s.length - rest.length))

/-- Worker for `matchAll`. -/
def matchAllGo : Nat → RE → List Char → List (List Char)
  | 0, _, _ => []
  | fuel + 1, r, s =>
    match matchAt r s with
    | some m => m :: matchAllGo fuel r (s.drop (max m.length 1))
    | none =>
      match s with
      | [] => []
      | _ :: rest => matchAllGo fuel r rest

/-- JavaScript `String.prototype.match` with the `g` flag: all
non-overlapping leftmost matches, in order (`[]` plays the role of the
`null` result). -/
def matchAll (r : RE) (s : List Char) : List (List Char) :=
  matchAllGo (s.length + 1) r s

/-- Anchored `^...$` test: `r` must consume `s` entirely. -/
def testFull (r : RE) (s : List Char) : Bool :=
  (matM (s.length + 200) r s (fun rest => if rest.isEmpty then some [] else none)).isSome

/-- Anchored `^...` test: `r` must match at the start of `s`. -/
def testStart (r : RE) (s : List Char) : Bool :=
  (matM (s.length + 200) r s (fun _ => some [])).isSome

/-- Unanchored `.test`: `r` matches somewhere in `s`. -/
def testSome (r : RE) : List Char → Bool
  | [] => testStart r []
  | c :: rest => testStart r (c :: rest) || testSome r rest

/-! ### Regex combinators used in the transcriptions -/

/-- Literal character. -/
def chC (c : Char) : RE := .cls (fun d => d == c)

/-- Case-insensitive literal character. -/
def chCI (c : Char) : RE := .cls (fun d => d.toLower == c.toLower)

/-- Sequence of a list of regexes. -/
def seqs (l : List RE) : RE := l.foldr .seq .eps

/-- `r?` (greedy). -/
def optRE (r : RE) : RE := .rep r 0 (some 1)

/-- `p+`. -/
def plusC (p : Char → Bool) : RE := .rep (.cls p) 1 none

/-- `p{n}`. -/
def repN (n : Nat) (p : Char → Bool) : RE := .rep (.cls p) n (some n)

/-- Case-insensitive literal string. -/
def strCI (s : String) : RE := seqs (s.data.map chCI)

/-! ### The regexes of `extractContactInfo`, transcribed -/

/-- `/([a-zA-Z0-9._%+-]+@[a-zA-Z0-9.-]+\.[a-zA-Z]{2,})/gi` -/
def emailRE : RE :=
  seqs [plusC (fun c => isAlnumC c || c == '.' || c == '_' || c == '%' || c == '+' || c == '-'),
        chC '@',
        plusC (fun c => isAlnumC c || c == '.' || c == '-'),
        chC '.',
        .rep (.cls isAlphaC) 2 none]

/-- `[\s-]` -/
def sdC : Char → Bool := fun c => isSpaceC c || c == '-'

/-- Tail of the first phone alternative, after the optional `+`:
`91[\s-]?[6-9]\d{9}`. -/
def phoneTail1 : RE :=
  seqs [chC '9', chC '1', optRE (.cls sdC), .cls (inRangeC '6' '9'), repN 9 isDigitC]

/-- Tail of the second phone alternative, after the optional `+`:
`1[\s-]?\(?[2-9]\d{2}\)?[\s-]?[2-9]\d{2}[\s-]?\d{4}`. -/
def phoneTail2 : RE :=
  seqs [chC '1', optRE (.cls sdC), optRE (chC '('), .cls (inRangeC '2' '9'),
        repN 2 isDigitC, optRE (chC ')'), optRE (.cls sdC), .cls (inRangeC '2' '9'),
        repN 2 isDigitC, optRE (.cls sdC), repN 4 isDigitC]

/-- Tail of the third phone alternative, after the optional `+`:
`[1-9]\d{1,14}`. -/
def phoneTail3 : RE :=
  seqs [.cls (inRangeC '1' '9'), .rep (.cls isDigitC) 1 (some 14)]

/-- `/(\+?91[\s-]?[6-9]\d{9}|\+?1[\s-]?\(?[2-9]\d{2}\)?[\s-]?[2-9]\d{2}[\s-]?\d{4}|\+?[1-9]\d{1,14})/g` -/
def phoneRE : RE :=
  .alt (.seq (optRE (chC '+')) phoneTail1)
    (.alt (.seq (optRE (chC '+')) phoneTail2)
      (.seq (optRE (chC '+')) phoneTail3))

/-- `https?:\/\/` (case-insensitive). -/
def schemeRE : RE :=
  seqs [chCI 'h', chCI 't', chCI 't', chCI 'p', optRE (chCI 's'), chC ':', chC '/', chC '/']

/-- `www\.` (case-insensitive). -/
def wwwRE : RE := seqs [chCI 'w', chCI 'w', chCI 'w', chC '.']

/-- `/(?:https?:\/\/)?(?:www\.)?([a-zA-Z0-9][a-zA-Z0-9-]{1,61}[a-zA-Z0-9]\.[a-zA-Z]{2,})/gi` -/
def websiteRE : RE :=
  seqs [optRE schemeRE, optRE wwwRE,
        .cls isAlnumC, .rep (.cls (fun c => isAlnumC c || c == '-')) 1 (some 61), .cls isAlnumC,
        chC '.', .rep (.cls isAlphaC) 2 none]

/-- `/^[A-Z][a-zA-Z]{1,}\s+[A-Z][a-zA-Z]{1,}(\s+[A-Z][a-zA-Z]{1,})?$/` -/
def nameRE : RE :=
  seqs [.cls (inRangeC 'A' 'Z'), plusC isAlphaC,
        plusC isSpaceC, .cls (inRangeC 'A' 'Z'), plusC isAlphaC,
        optRE (seqs [plusC isSpaceC, .cls (inRangeC 'A' 'Z'), plusC isAlphaC])]

/-- `/^[A-Z][a-zA-Z\s&,.-]{2,}/` -/
def properCaseRE : RE :=
  seqs [.cls (inRangeC 'A' 'Z'),
        .rep (.cls (fun c => isAlphaC c || isSpaceC c || c == '&' || c == ',' || c == '.' || c == '-')) 2 none]

/-- Street-suffix keyword alternation of the address regex, in source
order: `street|st\.?|avenue|ave\.?|road|rd\.?|drive|dr\.?|lane|ln\.?|boulevard|blvd\.?`. -/
def streetKwRE : RE :=
  .alt (strCI "street")
   (.alt (.seq (strCI "st") (optRE (chC '.')))
    (.alt (strCI "avenue")
     (.alt (.seq (strCI "ave") (optRE (chC '.')))
      (.alt (strCI "road")
       (.alt (.seq (strCI "rd") (optRE (chC '.')))
        (.alt (strCI "drive")
         (.alt (.seq (strCI "dr") (optRE (chC '.')))
          (.alt (strCI "lane")
           (.alt (.seq (strCI "ln") (optRE (chC '.')))
            (.alt (strCI "boulevard")
             (.seq (strCI "blvd") (optRE (chC '.')))))))))))))

/-- `/\d+.*(?:street|st\.?|avenue|ave\.?|road|rd\.?|drive|dr\.?|lane|ln\.?|boulevard|blvd\.?)/i`
(`.` is any character other than a line terminator). -/
def streetRE : RE :=
  seqs [plusC isDigitC, .rep (.cls (fun c => !(isNL c))) 0 none, streetKwRE]

/-- `/[A-Z][a-z]+,\s*[A-Z]{2}\s*\d{5}/` (case-sensitive). -/
def cityRE : RE :=
  seqs [.cls (inRangeC 'A' 'Z'), plusC (inRangeC 'a' 'z'), chC ',',
        .rep (.cls isSpaceC) 0 none, .cls (inRangeC 'A' 'Z'), .cls (inRangeC 'A' 'Z'),
        .rep (.cls isSpaceC) 0 none, repN 5 isDigitC]

/-- `/\d{6}/` (Indian postal codes). -/
def zip6RE : RE := repN 6 isDigitC

/-- `/\d{5}/` (US ZIP codes). -/
def zip5RE : RE := repN 5 isDigitC

/-- `/\d/` (used by the name heuristic's digit exclusion). -/
def digitRE : RE := .cls isDigitC

/-! ### Text preprocessing of `extractContactInfo` -/

/-- One step of `replace(/[^\w\s@.+\-()]/gi, ' ')`: characters outside
the allowed set become a space. -/
def keepAllowed (c : Char) : Char :=
  if isWordC c || isSpaceC c || c == '@' || c == '.' || c == '+' || c == '-' || c == '(' || c == ')'
  then c else ' '

/-- `text.replace(/[^\w\s@.+\-()]/gi, ' ').replace(/\s+/g, ' ').trim()`. -/
def cleanOf (text : String) : List Char :=
  trimL (collapseWs (text.data.map keepAllowed))

/-- `text.split(/[\n\r]+/).map(line => line.trim()).filter(line => line.length > 1)`. -/
def linesOf (text : String) : List String :=
  ((splitRuns text.data).map (fun l => String.mk (trimL l))).filter (fun s => 1 < s.length)

/-- `cleanText.match(emailRegex)`. -/
def emailsOf (text : String) : List (List Char) := matchAll emailRE (cleanOf text)

/-- `cleanText.match(phoneRegex)`. -/
def phonesOf (text : String) : List (List Char) := matchAll phoneRE (cleanOf text)

/-- `cleanText.match(websiteRegex)`. -/
def websitesOf (text : String) : List (List Char) := matchAll websiteRE (cleanOf text)

/-! ### Line classification -/

/-- `Array.prototype.find` with the element and its index, returning
both (the source keeps only the element; the index is exposed here for
the line-exclusivity statements). -/
def findL (p : String → Nat → Bool) : List String → Nat → Option (Nat × String)
  | [], _ => none
  | x :: xs, i => if p x i then some (i, x) else findL p xs (i + 1)

/-- Predicate of the name `lines.find`: within the first 4 lines, the
full-name shape, no digits, and no overlap with an extracted
email/phone/website. -/
def namePred (emails phones websites : List (List Char)) (line : String) (index : Nat) : Bool :=
  let trimmed := trimL line.data
  if 3 < index then false
  else
    testFull nameRE trimmed &&
    !(testSome digitRE trimmed) &&
    !(emails.any (fun e => hasSub (lowerL e) (lowerL trimmed))) &&
    !(phones.any (fun p => hasSub (p.filter isDigitC) trimmed)) &&
    !(websites.any (fun w => hasSub (lowerL w) (lowerL trimmed)))

/-- The business-entity keyword vocabulary (`companyKeywords`). -/
def companyKeywords : List String :=
  ["inc", "inc.", "ltd", "ltd.", "llc", "corp", "corporation", "company", "co.", "co",
   "group", "solutions", "services", "technologies", "systems", "enterprises", "consulting",
   "pvt", "private", "limited", "software", "tech", "digital", "innovation"]

/-- `hasCompanyKeyword`: some keyword occurs in (or ends) the
lower-cased trimmed line. -/
def companyKw (line : String) : Bool :=
  let trimmed := lowerL (trimL line.data)
  companyKeywords.any (fun k => hasSub k.data trimmed || endsL trimmed k.data)

/-- JavaScript truthiness of an optional string combined with `===`
comparison: `opt && line === opt`. -/
def jsEqSome (opt : Option String) (line : String) : Bool :=
  match opt with
  | some n => !n.isEmpty && line == n
  | none => false

/-- Predicate of the company `lines.find`: skip the name line and lines
overlapping an email/phone; then accept a keyword hit or, positionally,
a proper-case start within the first 5 lines. -/
def companyPred (emails phones : List (List Char)) (nameOpt : Option String)
    (line : String) (index : Nat) : Bool :=
  let trimmed := lowerL (trimL line.data)
  if jsEqSome nameOpt line then false
  else if emails.any (fun e => hasSub (lowerL e) trimmed) then false
  else if phones.any (fun p => hasSub (p.filter isDigitC) trimmed) then false
  else companyKw line || (testStart properCaseRE (trimL line.data) && index < 5)

/-- The role/seniority keyword vocabulary (`titleKeywords`). -/
def titleKeywords : List String :=
  ["manager", "director", "ceo", "cto", "cfo", "president", "vice president", "vp",
   "senior", "lead", "head", "chief", "engineer", "developer", "analyst", "consultant",
   "specialist", "coordinator", "executive", "officer", "founder", "partner", "associate"]

/-- Predicate of the job-title `lines.find`: skip the name and company
lines; then look for a title keyword in the lower-cased trimmed line. -/
def jobPred (nameOpt companyOpt : Option String) (line : String) : Bool :=
  let trimmed := lowerL (trimL line.data)
  if jsEqSome nameOpt line then false
  else if jsEqSome companyOpt line then false
  else titleKeywords.any (fun k => hasSub k.data trimmed)

/-- Predicate of the address `lines.find`: skip lines overlapping an
email/phone; then a street-suffix shape, a City-ST-ZIP shape, a 6-digit
or a 5-digit code. -/
def addrPred (emails phones : List (List Char)) (line : String) : Bool :=
  let trimmed := trimL line.data
  if emails.any (fun e => hasSub (lowerL e) (lowerL trimmed)) then false
  else if phones.any (fun p => hasSub (p.filter isDigitC) trimmed) then false
  else testSome streetRE trimmed || testSome cityRE trimmed ||
       testSome zip6RE trimmed || testSome zip5RE trimmed

/-- `nameCandidate` with its line index. -/
def nameFind (text : String) : Option (Nat × String) :=
  findL (namePred (emailsOf text) (phonesOf text) (websitesOf text)) (linesOf text) 0

/-- `nameCandidate`. -/
def nameCand (text : String) : Option String := (nameFind text).map (·.2)

/-- `companyCandidate` with its line index. -/
def companyFind (text : String) : Option (Nat × String) :=
  findL (companyPred (emailsOf text) (phonesOf text) (nameCand text)) (linesOf text) 0

/-- `companyCandidate`. -/
def companyCand (text : String) : Option String := (companyFind text).map (·.2)

/-- `jobTitleCandidate` with its line index. -/
def jobFind (text : String) : Option (Nat × String) :=
  findL (fun l _ => jobPred (nameCand text) (companyCand text) l) (linesOf text) 0

/-- `addressCandidate` with its line index. -/
def addrFind (text : String) : Option (Nat × String) :=
  findL (fun l _ => addrPred (emailsOf text) (phonesOf text) l) (linesOf text) 0

/-! ### The contact record and `extractContactInfo` -/

/-- Image provenance (`source: 'camera' | 'upload'`). -/
inductive Source where
  | camera
  | upload
deriving DecidableEq

/-- The `ScannedData` record produced by `extractContactInfo`. -/
structure ScannedData where
  name : Option String
  phone : Option String
  email : Option String
  company : Option String
  job_title : Option String
  website : Option String
  location : Option String
  raw_text : String
  source : Source
  confidence : Option Rat
deriving DecidableEq

/-- `websites?.[0]?.replace(/^(https?:\/\/)?/, '')`: strip a leading
URL scheme, if present. -/
def stripScheme (m : List Char) : List Char :=
  if startsL m "https://".data then m.drop 8
  else if startsL m "http://".data then m.drop 7
  else m

/-- `extractContactInfo(text, confidence)` with the component's
`uploadSource` state passed explicitly. -/
def extractContactInfo (text : String) (confidence : Option Rat) (uploadSource : Source) :
    ScannedData :=
  { name := (nameCand text).map (fun s => String.mk (trimL s.data))
    email := (emailsOf text).head?.map (fun m => String.mk (lowerL m))
    phone := (phonesOf text).head?.map (fun m => String.mk (m.filter (fun c => isDigitC c || c == '+')))
    website := (websitesOf text).head?.map (fun m => String.mk (stripScheme m))
    company := (companyCand text).map (fun s => String.mk (trimL s.data))
    job_title := ((jobFind text).map (·.2)).map (fun s => String.mk (trimL s.data))
    location := ((addrFind text).map (·.2)).map (fun s => String.mk (trimL s.data))
    raw_text := text
    source := uploadSource
    confidence := confidence }

/-! ### OCR orchestration (`processImage` and the remote vision handler) -/

/-- Body of a response of the remote vision handler as consumed by
`processImage` (`success`, `text`, optional `confidence`). -/
structure RemoteData where
  success : Bool
  text : String
  confidence : Option Rat
deriving DecidableEq

/-- Outcome of the remote OCR invocation: the call may raise, or return
a response whose `data` may be absent. -/
inductive RemoteOutcome where
  | raised
  | respond (data : Option RemoteData)
deriving DecidableEq

/-- Outcome of the local fallback engine: `Tesseract.recognize` may
reject, or return text with a confidence on the 0–100 scale. -/
inductive LocalOutcome where
  | raised
  | recognized (text : String) (confidence : Rat)
deriving DecidableEq

/-- The two user-visible failure modes of `processImage`: the
no-text-extracted error thrown after OCR, and any other error
propagated from the engines. -/
inductive ScanFailure where
  | noText
  | engineFail
deriving DecidableEq

/-- `response.data.confidence || 0.8`: JavaScript `||` treats an absent
or zero confidence as falsy. -/
def jsOrConf : Option Rat → Rat
  | none => 4 / 5
  | some q => if q = 0 then 4 / 5 else q

/-- The local branch of the inner `catch`: Tesseract's result with its
confidence divided by 100, or a propagated failure. -/
def localStage : LocalOutcome → Option (String × Rat)
  | .raised => none
  | .recognized t c => some (t, c / 100)

/-- The inner `try`/`catch` of `processImage`: use the remote result
when `response.data?.success`, otherwise fall back to the local
engine. -/
def ocrStage (remote : RemoteOutcome) (localFb : LocalOutcome) : Option (String × Rat) :=
  match remote with
  | .raised => localStage localFb
  | .respond none => localStage localFb
  | .respond (some d) =>
    if d.success then some (d.text, jsOrConf d.confidence)
    else localStage localFb

/-- `processImage` over explicit engine outcomes: run the OCR stage,
enforce the minimum trimmed length of 3, then classify. -/
def processImage (remote : RemoteOutcome) (localFb : LocalOutcome) (uploadSource : Source) :
    Except ScanFailure ScannedData :=
  match ocrStage remote localFb with
  | none => .error .engineFail
  | some (t, conf) =>
    if (String.mk (trimL t.data)).length < 3 then .error .noText
    else .ok (extractContactInfo t (some conf) uploadSource)

/-- The remote OCR path failed: the call raised, the response carried no
data, or the response was not successful. -/
def RemoteFailed : RemoteOutcome → Prop
  | .raised => True
  | .respond none => True
  | .respond (some d) => d.success = false

/-! ### Declarative matching semantics, for reasoning about the engine -/

/-- Declarative characterisation of the strings a regex can consume.
The `rep` constructors mirror the engine's unrolling of one greedy
iteration at a time. -/
inductive MatchedBy : RE → List Char → Prop where
  | cls {p : Char → Bool} {c : Char} : p c = true → MatchedBy (.cls p) [c]
  | eps : MatchedBy .eps []
  | seq {a b : RE} {x y : List Char} :
      MatchedBy a x → MatchedBy b y → MatchedBy (.seq a b) (x ++ y)
  | altL {a b : RE} {x : List Char} : MatchedBy a x → MatchedBy (.alt a b) x
  | altR {a b : RE} {x : List Char} : MatchedBy b x → MatchedBy (.alt a b) x
  | repDone {a : RE} {mn : Nat} {mx : Option Nat} :
      mn = 0 → MatchedBy (.rep a mn mx) []
  | repStep {a : RE} {mn : Nat} {mx : Option Nat} {x y : List Char} :
      mx ≠ some 0 → MatchedBy a x → MatchedBy (.rep a (mn - 1) (decMax mx)) y →
      MatchedBy (.rep a mn mx) (x ++ y)

/-- The union of the character classes occurring in a regex: every
character of a consumed string satisfies it. -/
def reCharB : RE → Char → Bool
  | .cls p, c => p c
  | .eps, _ => false
  | .seq a b, c => reCharB a c || reCharB b c
  | .alt a b, c => reCharB a c || reCharB b c
  | .rep a _ _, c => reCharB a c

/-! ## Lemmas about the matching engine -/

/-- Soundness of the backtracking matcher: a successful run consumes a
prefix the regex can match declaratively, and hands the suffix to the
continuation. -/
theorem matM_sound :
    ∀ (fuel : Nat) (r : RE) (s : List Char) (k : List Char → Option (List Char))
      (res : List Char), matM fuel r s k = some res →
      ∃ x y, s = x ++ y ∧ MatchedBy r x ∧ k y = some res := by
  intro fuel
  induction fuel with
  | zero => intro r s k res h; simp [matM] at h
  | succ fuel ih =>
    intro r s k res h
    cases r with
    | eps => exact ⟨[], s, rfl, .eps, h⟩
    | cls p =>
      cases s with
      | nil => simp [matM] at h
      | cons c rest =>
        have h' : (if p c then k rest else none) = some res := h
        split at h'
        next hp => exact ⟨[c], rest, rfl, .cls hp, h'⟩
        next => exact absurd h' (by simp)
    | seq a b =>
      have h' : matM fuel a s (fun s2 => matM fuel b s2 k) = some res := h
      obtain ⟨x, y, hs, hx, hk⟩ := ih a s _ res h'
      obtain ⟨x2, y2, hy, hx2, hk2⟩ := ih b y k res hk
      exact ⟨x ++ x2, y2, by rw [hs, hy, List.append_assoc], .seq hx hx2, hk2⟩
    | alt a b =>
      have h' : (matM fuel a s k).orElse (fun _ => matM fuel b s k) = some res := h
      cases ha : matM fuel a s k with
      | some v =>
        rw [ha] at h'
        simp only [Option.orElse] at h'
        obtain ⟨x, y, hs, hx, hk⟩ := ih a s k v ha
        exact ⟨x, y, hs, .altL hx, by rw [hk, h']⟩
      | none =>
        rw [ha] at h'
        simp only [Option.orElse] at h'
        obtain ⟨x, y, hs, hx, hk⟩ := ih b s k res h'
        exact ⟨x, y, hs, .altR hx, hk⟩
    | rep a mn mx =>
      by_cases hmx : mx = some 0
      · have h' : (if mn = 0 then k s else none) = some res := by
          have := h; simp only [matM, if_pos hmx] at this; exact this
        split at h'
        next hmn => exact ⟨[], s, rfl, .repDone hmn, h'⟩
        next => exact absurd h' (by simp)
      · have main : matM fuel a s (fun s2 =>
            if s2.length < s.length then matM fuel (.rep a (mn - 1) (decMax mx)) s2 k
            else none) = some res →
            ∃ x y, s = x ++ y ∧ MatchedBy (.rep a mn mx) x ∧ k y = some res := by
          intro hm
          obtain ⟨x, y, hs, hx, hky⟩ := ih a s _ res hm
          have hky' : (if y.length < s.length
              then matM fuel (.rep a (mn - 1) (decMax mx)) y k else none) = some res := hky
          split at hky'
          next =>
            obtain ⟨x2, y2, hy, hx2, hk2⟩ := ih _ y k res hky'
            exact ⟨x ++ x2, y2, by rw [hs, hy, List.append_assoc],
              .repStep hmx hx hx2, hk2⟩
          next => exact absurd hky' (by simp)
        by_cases hmn : mn = 0
        · have h' : (matM fuel a s (fun s2 =>
              if s2.length < s.length then matM fuel (.rep a (mn - 1) (decMax mx)) s2 k
              else none)).orElse (fun _ => k s) = some res := by
            have := h; simp only [matM, if_neg hmx, if_pos hmn] at this; exact this
          cases hm : matM fuel a s (fun s2 =>
              if s2.length < s.length then matM fuel (.rep a (mn - 1) (decMax mx)) s2 k
              else none) with
          | some v =>
            rw [hm] at h'
            simp only [Option.orElse] at h'
            injection h' with h''
            subst h''
            exact main hm
          | none =>
            rw [hm] at h'
            simp only [Option.orElse] at h'
            exact ⟨[], s, rfl, .repDone hmn, h'⟩
        · have h' : matM fuel a s (fun s2 =>
              if s2.length < s.length then matM fuel (.rep a (mn - 1) (decMax mx)) s2 k
              else none) = some res := by
            have := h; simp only [matM, if_neg hmx, if_neg hmn] at this; exact this
          exact main h'

/-- Every character of a declaratively matched string satisfies some
character class of the regex. -/
theorem matched_chars {r : RE} {x : List Char} (h : MatchedBy r x) :
    ∀ c ∈ x, reCharB r c = true := by
  induction h with
  | cls hp =>
    intro c hc
    rw [List.mem_singleton] at hc
    subst hc
    simpa [reCharB] using hp
  | eps => intro c hc; simp at hc
  | seq _ _ ih1 ih2 =>
    intro c hc
    rcases List.mem_append.mp hc with h1 | h2
    · simp [reCharB, ih1 c h1]
    · simp [reCharB, ih2 c h2]
  | altL _ ih => intro c hc; simp [reCharB, ih c hc]
  | altR _ ih => intro c hc; simp [reCharB, ih c hc]
  | repDone _ => intro c hc; simp at hc
  | repStep _ _ _ ih1 ih2 =>
    intro c hc
    rcases List.mem_append.mp hc with h1 | h2
    · simpa [reCharB] using ih1 c h1
    · simpa [reCharB] using ih2 c h2

/-- Inversion for sequencing. -/
theorem matched_seq {a b : RE} {m : List Char} (h : MatchedBy (.seq a b) m) :
    ∃ x y, m = x ++ y ∧ MatchedBy a x ∧ MatchedBy b y := by
  cases h with
  | seq hx hy => exact ⟨_, _, rfl, hx, hy⟩

/-- Inversion for alternation. -/
theorem matched_alt {a b : RE} {m : List Char} (h : MatchedBy (.alt a b) m) :
    MatchedBy a m ∨ MatchedBy b m := by
  cases h with
  | altL h1 => exact .inl h1
  | altR h1 => exact .inr h1

/-- Inversion for a character class. -/
theorem matched_cls {p : Char → Bool} {m : List Char} (h : MatchedBy (.cls p) m) :
    ∃ c, m = [c] ∧ p c = true := by
  cases h with
  | cls hp => exact ⟨_, rfl, hp⟩

/-- The optional leading `+` of every phone alternative consumes either
nothing or exactly one `+`. -/
theorem matched_opt_plus {m : List Char} (h : MatchedBy (optRE (chC '+')) m) :
    m = [] ∨ m = ['+'] := by
  have h' : MatchedBy (.rep (chC '+') 0 (some 1)) m := h
  cases h' with
  | repDone _ => exact .inl rfl
  | repStep hmx hx hy =>
    obtain ⟨c, hm, hp⟩ := matched_cls hx
    have hc : c = '+' := eq_of_beq hp
    have hy' : MatchedBy (.rep (chC '+') 0 (some 0)) _ := hy
    cases hy' with
    | repDone _ =>
      subst hm hc
      exact .inr rfl
    | repStep hmx2 _ _ => exact absurd rfl hmx2

/-- Taking the length of the left part of an append recovers it. -/
theorem take_append_len {α : Type} (x y : List α) : (x ++ y).take x.length = x := by
  induction x with
  | nil => simp
  | cons a l ih => simp [ih]

/-- Soundness of `matchAt`: a returned match is a declaratively matched
prefix of the input. -/
theorem matchAt_sound {r : RE} {s m : List Char} (h : matchAt r s = some m) :
    MatchedBy r m ∧ ∃ rest, s = m ++ rest := by
  unfold matchAt at h
  cases hm : matM (s.length + 200) r s (fun rest => some rest) with
  | none => rw [hm] at h; exact absurd h (by simp)
  | some rest =>
    rw [hm] at h
    have hmm : s.take (s.length - rest.length) = m := by
      injection h
    obtain ⟨x, y, hs, hx, hk⟩ := matM_sound _ _ _ _ _ hm
    have hy : y = rest := by injection hk
    subst hy
    have hlen : s.length - y.length = x.length := by
      rw [hs, List.length_append]
      omega
    rw [hlen, hs, take_append_len] at hmm
    subst hmm
    exact ⟨hx, y, hs⟩

/-- Every element of `matchAllGo` is a declarative match and all its
characters come from the scanned string. -/
theorem matchAllGo_mem {fuel : Nat} {r : RE} {m : List Char} :
    ∀ {s : List Char}, m ∈ matchAllGo fuel r s → MatchedBy r m ∧ ∀ c ∈ m, c ∈ s := by
  induction fuel with
  | zero => intro s h; simp [matchAllGo] at h
  | succ fuel ih =>
    intro s h
    simp only [matchAllGo] at h
    cases hma : matchAt r s with
    | some m0 =>
      rw [hma] at h
      rcases List.mem_cons.mp h with h1 | h2
      · subst h1
        obtain ⟨hmb, rest, hs⟩ := matchAt_sound hma
        exact ⟨hmb, fun c hc => by rw [hs]; exact List.mem_append_left _ hc⟩
      · obtain ⟨hmb, hsub⟩ := ih h2
        exact ⟨hmb, fun c hc => List.drop_subset _ _ (hsub c hc)⟩
    | none =>
      rw [hma] at h
      cases s with
      | nil => simp at h
      | cons c0 rest =>
        obtain ⟨hmb, hsub⟩ := ih h
        exact ⟨hmb, fun c hc => List.mem_cons_of_mem _ (hsub c hc)⟩

/-- Every element of `matchAll` is a declarative match whose characters
come from the scanned string. -/
theorem matchAll_mem {r : RE} {s m : List Char} (h : m ∈ matchAll r s) :
    MatchedBy r m ∧ ∀ c ∈ m, c ∈ s :=
  matchAllGo_mem h

/-- The head of a list, when present, is a member. -/
theorem firstMem {α : Type} {l : List α} {a : α} (h : l.head? = some a) : a ∈ l := by
  cases l with
  | nil => simp at h
  | cons x xs =>
    have : x = a := by simpa using h
    subst this
    exact List.mem_cons_self _ _

/-! ## Lemmas about the string utilities -/

/-- Characters of a verified beginning occur in the longer string. -/
theorem startsL_mem : ∀ (hay pre2 : List Char), startsL hay pre2 = true →
    ∀ c ∈ pre2, c ∈ hay := by
  intro hay pre2
  induction pre2 generalizing hay with
  | nil => intro _ c hc; simp at hc
  | cons d ds ih =>
    intro h c hc
    cases hay with
    | nil => simp [startsL] at h
    | cons x xs =>
      rw [startsL] at h
      rw [Bool.and_eq_true] at h
      obtain ⟨h1, h2⟩ := h
      have hxd : x = d := eq_of_beq h1
      rcases List.mem_cons.mp hc with hcd | hcds
      · subst hcd; rw [hxd]; exact List.mem_cons_self _ _
      · exact List.mem_cons_of_mem _ (ih xs h2 c hcds)

/-- `dropWhile` keeps only characters of the original list. -/
theorem dropWhile_mem (p : Char → Bool) :
    ∀ (l : List Char), ∀ c ∈ l.dropWhile p, c ∈ l := by
  intro l
  induction l with
  | nil => simp
  | cons x xs ih =>
    intro c hc
    rw [List.dropWhile_cons] at hc
    split at hc
    · exact List.mem_cons_of_mem _ (ih c hc)
    · exact hc

/-- `trimL` keeps only characters of the original list. -/
theorem trimL_mem (l : List Char) : ∀ c ∈ trimL l, c ∈ l := by
  intro c hc
  unfold trimL at hc
  rw [List.mem_reverse] at hc
  have h1 := dropWhile_mem isSpaceC _ c hc
  rw [List.mem_reverse] at h1
  exact dropWhile_mem isSpaceC _ c h1

/-- Characters of the whitespace-collapsed string are a space or come
from the original string (joint statement for the mutual helpers). -/
theorem collapse_skip_mem : ∀ (l : List Char),
    (∀ c ∈ collapseWs l, c = ' ' ∨ c ∈ l) ∧ (∀ c ∈ skipWs l, c = ' ' ∨ c ∈ l) := by
  intro l
  induction l with
  | nil => exact ⟨by simp [collapseWs], by simp [skipWs]⟩
  | cons x xs ih =>
    obtain ⟨ih1, ih2⟩ := ih
    constructor
    · intro c hc
      rw [collapseWs] at hc
      split at hc
      · rcases List.mem_cons.mp hc with h1 | h2
        · exact .inl h1
        · rcases ih2 c h2 with h | h
          · exact .inl h
          · exact .inr (List.mem_cons_of_mem _ h)
      · rcases List.mem_cons.mp hc with h1 | h2
        · exact .inr (h1 ▸ List.mem_cons_self _ _)
        · rcases ih1 c h2 with h | h
          · exact .inl h
          · exact .inr (List.mem_cons_of_mem _ h)
    · intro c hc
      rw [skipWs] at hc
      split at hc
      · rcases ih2 c hc with h | h
        · exact .inl h
        · exact .inr (List.mem_cons_of_mem _ h)
      · rcases List.mem_cons.mp hc with h1 | h2
        · exact .inr (h1 ▸ List.mem_cons_self _ _)
        · rcases ih1 c h2 with h | h
          · exact .inl h
          · exact .inr (List.mem_cons_of_mem _ h)

/-- The normalized text never contains a colon: the cleaning pass
replaces every character outside `[\w\s@.+\-()]` by a space. -/
theorem cleanOf_no_colon (text : String) : (':' : Char) ∉ cleanOf text := by
  intro hmem
  unfold cleanOf at hmem
  have h1 : (':' : Char) ∈ collapseWs (text.data.map keepAllowed) := trimL_mem _ _ hmem
  rcases (collapse_skip_mem _).1 _ h1 with h | h
  · exact absurd h (by decide)
  · obtain ⟨c, _, hc⟩ := List.mem_map.mp h
    unfold keepAllowed at hc
    split at hc
    next hcond =>
      subst hc
      exact absurd hcond (by decide)
    next => exact absurd hc (by decide)

/-- Stripping the URL scheme from a string that contains no colon does
nothing; the scheme-strip step of the website field is vacuous on the
normalized text. -/
theorem stripScheme_eq_self {m : List Char} (h : (':' : Char) ∉ m) : stripScheme m = m := by
  unfold stripScheme
  split
  next hs =>
    exact absurd (startsL_mem _ _ hs ':' (by decide)) h
  next =>
    split
    next hs =>
      exact absurd (startsL_mem _ _ hs ':' (by decide)) h
    next => rfl

/-! ## Lemmas about `findL` -/

/-- A found element satisfies the predicate at its index. -/
theorem findL_pred : ∀ (p : String → Nat → Bool) (ls : List String) (start j : Nat)
    (x : String), findL p ls start = some (j, x) → p x j = true := by
  intro p ls
  induction ls with
  | nil => intro start j x h; simp [findL] at h
  | cons y ys ih =>
    intro start j x h
    rw [findL] at h
    split at h
    next hp =>
      injection h with h'
      obtain ⟨h1, h2⟩ := Prod.mk.inj h'
      subst h1; subst h2
      exact hp
    next => exact ih (start + 1) j x h

/-- A found element sits at its reported index (relative to the
starting index). -/
theorem findL_get : ∀ (p : String → Nat → Bool) (ls : List String) (start j : Nat)
    (x : String), findL p ls start = some (j, x) →
    start ≤ j ∧ ls.get? (j - start) = some x := by
  intro p ls
  induction ls with
  | nil => intro start j x h; simp [findL] at h
  | cons y ys ih =>
    intro start j x h
    rw [findL] at h
    split at h
    next =>
      injection h with h'
      obtain ⟨h1, h2⟩ := Prod.mk.inj h'
      subst h1; subst h2
      simp
    next =>
      obtain ⟨hle, hget⟩ := ih (start + 1) j x h
      refine ⟨by omega, ?_⟩
      have h1 : j - start = (j - (start + 1)) + 1 := by omega
      rw [h1]
      simpa using hget

/-- A found element is a member of the list. -/
theorem findL_mem : ∀ (p : String → Nat → Bool) (ls : List String) (start j : Nat)
    (x : String), findL p ls start = some (j, x) → x ∈ ls := by
  intro p ls
  induction ls with
  | nil => intro start j x h; simp [findL] at h
  | cons y ys ih =>
    intro start j x h
    rw [findL] at h
    split at h
    next =>
      injection h with h'
      obtain ⟨_, h2⟩ := Prod.mk.inj h'
      subst h2
      exact List.mem_cons_self _ _
    next => exact List.mem_cons_of_mem _ (ih (start + 1) j x h)

/-- Every preprocessed line has length greater than 1 (the source
filters `line.length > 1`). -/
theorem linesOf_len {text : String} {s : String} (h : s ∈ linesOf text) : 1 < s.length := by
  unfold linesOf at h
  have h1 := List.of_mem_filter h
  exact of_decide_eq_true h1

/-- A string of length greater than 1 is not empty. -/
theorem not_isEmpty_of_len {s : String} (h : 1 < s.length) : s.isEmpty = false := by
  cases hs : s.isEmpty with
  | false => rfl
  | true =>
    have : s = "" := (String.isEmpty_iff s).mp hs
    subst this
    simp at h

/-! ## Shape of extracted phone numbers -/

/-- A string matched by one phone alternative, once every character
other than a digit or `+` is removed, is a digit string with at most a
single leading `+`. -/
theorem phone_alt_shape {tail : RE} {m : List Char} (hplus : reCharB tail '+' = false)
    (hm : MatchedBy (.seq (optRE (chC '+')) tail) m) :
    ∃ t, (m.filter (fun c => isDigitC c || c == '+') = t ∨
          m.filter (fun c => isDigitC c || c == '+') = '+' :: t) ∧
         ∀ c ∈ t, isDigitC c = true := by
  obtain ⟨x, y, hxy, hx, hy⟩ := matched_seq hm
  have hychars := matched_chars hy
  have hyt : ∀ c ∈ y.filter (fun c => isDigitC c || c == '+'), isDigitC c = true := by
    intro c hc
    obtain ⟨hcy, hcond⟩ := List.mem_filter.mp hc
    have hcr := hychars c hcy
    by_cases hcplus : c = '+'
    · subst hcplus; rw [hplus] at hcr; exact absurd hcr (by simp)
    · rcases (Bool.or_eq_true _ _).mp hcond with h1 | h2
      · exact h1
      · exact absurd (eq_of_beq h2) hcplus
  refine ⟨y.filter (fun c => isDigitC c || c == '+'), ?_, hyt⟩
  rcases matched_opt_plus hx with hxe | hxp
  · subst hxe
    simp at hxy
    subst hxy
    exact .inl rfl
  · subst hxp
    subst hxy
    right
    have hpcond : (isDigitC '+' || '+' == '+') = true := by decide
    simp [List.filter_cons, hpcond]

/-- A string matched by the full phone regex, restricted to digits and
`+`, is a digit string with at most a single leading `+`. -/
theorem phone_shape {m : List Char} (h : MatchedBy phoneRE m) :
    ∃ t, (m.filter (fun c => isDigitC c || c == '+') = t ∨
          m.filter (fun c => isDigitC c || c == '+') = '+' :: t) ∧
         ∀ c ∈ t, isDigitC c = true := by
  have halt : MatchedBy (.alt (.seq (optRE (chC '+')) phoneTail1)
      (.alt (.seq (optRE (chC '+')) phoneTail2) (.seq (optRE (chC '+')) phoneTail3))) m := h
  rcases matched_alt halt with h1 | h23
  · exact phone_alt_shape (by decide) h1
  · rcases matched_alt h23 with h2 | h3
    · exact phone_alt_shape (by decide) h2
    · exact phone_alt_shape (by decide) h3

/-- The website field always equals the raw earliest website-shaped
match of the normalized text: the scheme-strip step never fires because
normalization has already removed every colon. -/
theorem website_eq_first_match (text : String) (conf : Option Rat) (src : Source) :
    (extractContactInfo text conf src).website =
      (websitesOf text).head?.map (fun m => String.mk m) := by
  show (websitesOf text).head?.map (fun m => String.mk (stripScheme m)) =
    (websitesOf text).head?.map (fun m => String.mk m)
  cases hw : (websitesOf text).head? with
  | none => rfl
  | some m =>
    have hmem : m ∈ matchAll websiteRE (cleanOf text) := firstMem hw
    have hsub := (matchAll_mem hmem).2
    have hnc : (':' : Char) ∉ m := fun hc => cleanOf_no_colon text (hsub _ hc)
    simp [stripScheme_eq_self hnc]

/-! ## Shape of website matches -/

/-- Inversion for the empty regex. -/
theorem matched_eps {m : List Char} (h : MatchedBy .eps m) : m = [] := by
  cases h; rfl

/-- Inversion for the greedy option: it consumes nothing or one match
of its body. -/
theorem matched_opt {r : RE} {x : List Char} (h : MatchedBy (optRE r) x) :
    x = [] ∨ MatchedBy r x := by
  have h' : MatchedBy (.rep r 0 (some 1)) x := h
  cases h' with
  | repDone _ => exact .inl rfl
  | repStep hmx hx hy =>
    have hy' : MatchedBy (.rep r 0 (some 0)) _ := hy
    cases hy' with
    | repDone _ => rw [List.append_nil]; exact .inr hx
    | repStep hmx2 _ _ => exact absurd rfl hmx2

/-- `startsL` characterised by an append decomposition. -/
theorem startsL_iff_append : ∀ (hay p : List Char),
    startsL hay p = true ↔ ∃ t, hay = p ++ t := by
  intro hay p
  induction p generalizing hay with
  | nil => simp [startsL]
  | cons d ds ih =>
    cases hay with
    | nil => simp [startsL]
    | cons x xs =>
      rw [startsL, Bool.and_eq_true]
      constructor
      · rintro ⟨h1, h2⟩
        obtain ⟨t, ht⟩ := (ih xs).mp h2
        exact ⟨t, by rw [eq_of_beq h1, ht]; rfl⟩
      · rintro ⟨t, ht⟩
        injection ht with h1 h2
        subst h1
        exact ⟨beq_self_eq_true x, (ih xs).mpr ⟨t, h2⟩⟩

/-- A list starts with any of its own initial segments. -/
theorem startsL_of_append (x t : List Char) : startsL (x ++ t) x = true :=
  (startsL_iff_append _ _).mpr ⟨t, rfl⟩

/-- Two decompositions of the same list at a first dot agree. -/
theorem first_dot_split : ∀ (a a' b b' : List Char),
    a ++ '.' :: b = a' ++ '.' :: b' → ('.' : Char) ∉ a → ('.' : Char) ∉ a' →
    a = a' ∧ b = b' := by
  intro a
  induction a with
  | nil =>
    intro a' b b' heq ha ha'
    cases a' with
    | nil =>
      injection heq with _ h2
      exact ⟨rfl, h2⟩
    | cons y ys =>
      injection heq with h1 _
      exfalso
      apply ha'
      rw [← h1]
      exact List.mem_cons_self _ _
  | cons x xs ih =>
    intro a' b b' heq ha ha'
    cases a' with
    | nil =>
      injection heq with h1 _
      exfalso
      apply ha
      rw [h1]
      exact List.mem_cons_self _ _
    | cons y ys =>
      injection heq with h1 h2
      obtain ⟨hA, hB⟩ := ih ys b b' h2
        (fun hm => ha (List.mem_cons_of_mem _ hm))
        (fun hm => ha' (List.mem_cons_of_mem _ hm))
      exact ⟨by rw [h1, hA], hB⟩

/-- Every string matched by the URL-scheme regex contains a colon. -/
theorem scheme_has_colon {s : List Char} (h : MatchedBy schemeRE s) : (':' : Char) ∈ s := by
  have h' : MatchedBy (.seq (chCI 'h') (.seq (chCI 't') (.seq (chCI 't') (.seq (chCI 'p')
      (.seq (optRE (chCI 's')) (.seq (chC ':') (.seq (chC '/')
      (.seq (chC '/') .eps)))))))) s := h
  obtain ⟨p1, r1, he1, _, h1⟩ := matched_seq h'
  obtain ⟨p2, r2, he2, _, h2⟩ := matched_seq h1
  obtain ⟨p3, r3, he3, _, h3⟩ := matched_seq h2
  obtain ⟨p4, r4, he4, _, h4⟩ := matched_seq h3
  obtain ⟨p5, r5, he5, _, h5⟩ := matched_seq h4
  obtain ⟨p6, r6, he6, hcol, _⟩ := matched_seq h5
  obtain ⟨c, hcEq, hcp⟩ := matched_cls hcol
  have hc : c = ':' := eq_of_beq hcp
  subst hc
  rw [he1, he2, he3, he4, he5, he6, hcEq]
  simp

/-- Every string matched by the `www.`-prefix regex is three
`w`-letters (up to case) followed by a dot. -/
theorem www_shape {s : List Char} (h : MatchedBy wwwRE s) :
    ∃ a b c, s = [a, b, c, '.'] ∧ a.toLower = 'w' ∧ b.toLower = 'w' ∧ c.toLower = 'w' := by
  have h' : MatchedBy (.seq (chCI 'w') (.seq (chCI 'w') (.seq (chCI 'w')
      (.seq (chC '.') .eps)))) s := h
  obtain ⟨p1, r1, he1, ha, h1⟩ := matched_seq h'
  obtain ⟨p2, r2, he2, hb, h2⟩ := matched_seq h1
  obtain ⟨p3, r3, he3, hc, h3⟩ := matched_seq h2
  obtain ⟨p4, r4, he4, hd, h4⟩ := matched_seq h3
  obtain ⟨a, ha1, ha2⟩ := matched_cls ha
  obtain ⟨b, hb1, hb2⟩ := matched_cls hb
  obtain ⟨c, hc1, hc2⟩ := matched_cls hc
  obtain ⟨d0, hd1, hd2⟩ := matched_cls hd
  have he : r4 = [] := matched_eps h4
  refine ⟨a, b, c, ?_, ?_, ?_, ?_⟩
  · rw [he1, he2, he3, he4, ha1, hb1, hc1, hd1, he, eq_of_beq hd2]
    rfl
  · rw [eq_of_beq ha2]; rfl
  · rw [eq_of_beq hb2]; rfl
  · rw [eq_of_beq hc2]; rfl

/-- Structural shape of every string the website regex can match: an
optional prefix (empty, a scheme containing a colon, or a
case-insensitive `www.`), then a nonempty dot-free label of
alphanumerics and dashes, exactly one dot, and a nonempty alphabetic
tail. -/
theorem website_shape {m : List Char} (h : MatchedBy websiteRE m) :
    ∃ pre lab tld, m = pre ++ (lab ++ '.' :: tld) ∧
      (pre = [] ∨ (':' : Char) ∈ pre ∨
        ∃ a b c, pre = [a, b, c, '.'] ∧
          a.toLower = 'w' ∧ b.toLower = 'w' ∧ c.toLower = 'w') ∧
      lab ≠ [] ∧ (∀ ch ∈ lab, (isAlnumC ch || ch == '-') = true) ∧
      tld ≠ [] ∧ (∀ ch ∈ tld, isAlphaC ch = true) := by
  have h' : MatchedBy (.seq (optRE schemeRE) (.seq (optRE wwwRE) (.seq (.cls isAlnumC)
      (.seq (.rep (.cls (fun c => isAlnumC c || c == '-')) 1 (some 61)) (.seq (.cls isAlnumC)
      (.seq (chC '.') (.seq (.rep (.cls isAlphaC) 2 none) .eps))))))) m := h
  obtain ⟨s0, r0, he0, h0, hr0⟩ := matched_seq h'
  obtain ⟨s1, r1, he1, h1, hr1⟩ := matched_seq hr0
  obtain ⟨s2, r2, he2, h2, hr2⟩ := matched_seq hr1
  obtain ⟨s3, r3, he3, h3, hr3⟩ := matched_seq hr2
  obtain ⟨s4, r4, he4, h4, hr4⟩ := matched_seq hr3
  obtain ⟨s5, r5, he5, h5, hr5⟩ := matched_seq hr4
  obtain ⟨s6, r6, he6, h6, hr6⟩ := matched_seq hr5
  have he7 : r6 = [] := matched_eps hr6
  obtain ⟨a2, ha2, hp2⟩ := matched_cls h2
  obtain ⟨a4, ha4, hp4⟩ := matched_cls h4
  obtain ⟨a5, ha5, hp5⟩ := matched_cls h5
  have ha5' : a5 = '.' := eq_of_beq hp5
  refine ⟨s0 ++ s1, a2 :: (s3 ++ [a4]), s6, ?_, ?_, by simp, ?_, ?_, ?_⟩
  · rw [he0, he1, he2, he3, he4, he5, he6, he7, ha2, ha4, ha5, ha5']
    simp
  · rcases matched_opt h0 with h0e | h0s
    · rcases matched_opt h1 with h1e | h1w
      · exact .inl (by rw [h0e, h1e]; rfl)
      · obtain ⟨a, b, c, hs1, hwa, hwb, hwc⟩ := www_shape h1w
        exact .inr (.inr ⟨a, b, c, by rw [h0e, hs1]; rfl, hwa, hwb, hwc⟩)
    · exact .inr (.inl (List.mem_append_left _ (scheme_has_colon h0s)))
  · intro ch hch
    rcases List.mem_cons.mp hch with h | h
    · subst h
      simp [hp2]
    · rcases List.mem_append.mp h with h' | h'
      · have := matched_chars h3 ch h'
        simpa [reCharB] using this
      · rw [List.mem_singleton] at h'
        subst h'
        simp [hp4]
  · cases h6 with
    | repDone hzero => exact absurd hzero (by decide)
    | repStep _ hx _ =>
      obtain ⟨c, hc, _⟩ := matched_cls hx
      subst hc
      simp
  · intro ch hch
    have := matched_chars h6 ch hch
    simpa [reCharB] using this

/-! ## The claims -/

/-- C1 (counterexample): the four-way line-exclusivity claim fails —
on the input `"5 Main Street Solutions"` the company candidate and the
location candidate are both taken from the preprocessed line of index
0, because the address search never excludes the company line. -/
theorem c1_counterexample :
    companyFind "5 Main Street Solutions" = some (0, "5 Main Street Solutions") ∧
    addrFind "5 Main Street Solutions" = some (0, "5 Main Street Solutions") ∧
    (extractContactInfo "5 Main Street Solutions" none Source.camera).company =
      some "5 Main Street Solutions" ∧
    (extractContactInfo "5 Main Street Solutions" none Source.camera).location =
      some "5 Main Street Solutions" :=
  ⟨by decide, by decide, by decide, by decide⟩

/-- C1 (amended): among the fields name, company and jobTitle the
assigned preprocessed line indices are pairwise distinct (each of the
later searches skips any line whose text equals an earlier candidate);
the location may share a line with any of them. -/
theorem c1_amended (text : String) :
    (∀ i li j lj, nameFind text = some (i, li) → companyFind text = some (j, lj) → i ≠ j) ∧
    (∀ i li j lj, nameFind text = some (i, li) → jobFind text = some (j, lj) → i ≠ j) ∧
    (∀ i li j lj, companyFind text = some (i, li) → jobFind text = some (j, lj) → i ≠ j) := by
  have getEq : ∀ {i li j lj} (f g : String → Nat → Bool),
      findL f (linesOf text) 0 = some (i, li) → findL g (linesOf text) 0 = some (j, lj) →
      i = j → li = lj := by
    intro i li j lj f g h1 h2 hij
    have hg1 := (findL_get f (linesOf text) 0 i li h1).2
    have hg2 := (findL_get g (linesOf text) 0 j lj h2).2
    rw [hij] at hg1
    simp only [Nat.sub_zero] at hg1 hg2
    rw [hg2] at hg1
    injection hg1 with h
    exact h.symm
  refine ⟨?_, ?_, ?_⟩
  · intro i li j lj hn hc hij
    have hli : li = lj := getEq _ _ hn hc hij
    subst hli
    have hpred := findL_pred _ _ _ _ _ hc
    have hnc : nameCand text = some li := by rw [nameCand, hn]; rfl
    have hemp : li.isEmpty = false :=
      not_isEmpty_of_len (linesOf_len (findL_mem _ _ _ _ _ hn))
    rw [hnc] at hpred
    simp [companyPred, jsEqSome, hemp] at hpred
  · intro i li j lj hn hj hij
    have hli : li = lj := getEq _ _ hn hj hij
    subst hli
    have hpred := findL_pred _ _ _ _ _ hj
    have hnc : nameCand text = some li := by rw [nameCand, hn]; rfl
    have hemp : li.isEmpty = false :=
      not_isEmpty_of_len (linesOf_len (findL_mem _ _ _ _ _ hn))
    rw [hnc] at hpred
    simp [jobPred, jsEqSome, hemp] at hpred
  · intro i li j lj hc hj hij
    have hli : li = lj := getEq _ _ hc hj hij
    subst hli
    have hpred := findL_pred _ _ _ _ _ hj
    have hcc : companyCand text = some li := by rw [companyCand, hc]; rfl
    have hemp : li.isEmpty = false :=
      not_isEmpty_of_len (linesOf_len (findL_mem _ _ _ _ _ hc))
    rw [hcc] at hpred
    simp [jobPred, jsEqSome, hemp] at hpred

/-- C1 (witness): on the spec's four-line card the name, company and
job-title candidates come from lines 0, 1 and 2, pairwise distinct by
`c1_amended`. -/
theorem c1_amended_witness :
    nameFind "Jane Doe\nAcme Solutions Inc\nSenior Engineer\njane@acme.com" =
      some (0, "Jane Doe") ∧
    companyFind "Jane Doe\nAcme Solutions Inc\nSenior Engineer\njane@acme.com" =
      some (1, "Acme Solutions Inc") ∧
    jobFind "Jane Doe\nAcme Solutions Inc\nSenior Engineer\njane@acme.com" =
      some (2, "Senior Engineer") ∧
    (0 : Nat) ≠ 1 ∧ (0 : Nat) ≠ 2 ∧ (1 : Nat) ≠ 2 := by
  refine ⟨by decide, by decide, by decide, ?_, ?_, ?_⟩
  · exact (c1_amended "Jane Doe\nAcme Solutions Inc\nSenior Engineer\njane@acme.com").1
      0 "Jane Doe" 1 "Acme Solutions Inc" (by decide) (by decide)
  · exact (c1_amended "Jane Doe\nAcme Solutions Inc\nSenior Engineer\njane@acme.com").2.1
      0 "Jane Doe" 2 "Senior Engineer" (by decide) (by decide)
  · exact (c1_amended "Jane Doe\nAcme Solutions Inc\nSenior Engineer\njane@acme.com").2.2
      1 "Acme Solutions Inc" 2 "Senior Engineer" (by decide) (by decide)

/-- C2: `rawText` of the returned record always equals the input text
verbatim, for every input including the empty string. -/
theorem c2_rawtext (text : String) (conf : Option Rat) (src : Source) :
    (extractContactInfo text conf src).raw_text = text := rfl

/-- C3 (counterexample): the `www.` prefix is not stripped — on an
input whose earliest website-shaped match is `www.example.com` the
website field is `www.example.com`, not `example.com`. -/
theorem c3_counterexample :
    (websitesOf "www.example.com").head? = some "www.example.com".data ∧
    (extractContactInfo "www.example.com" none Source.camera).website =
      some "www.example.com" ∧
    (extractContactInfo "www.example.com" none Source.camera).website ≠
      some "example.com" :=
  ⟨by decide, by decide, by decide⟩

/-- C3 (amended): the website field is the earliest website-shaped
match returned verbatim: the scheme strip is vacuous (normalization has
already removed every colon, so no match can start with a scheme) and
the `www.` prefix is retained — `"www.example.com"` yields
`website = "www.example.com"`. -/
theorem c3_amended :
    (∀ (text : String) (conf : Option Rat) (src : Source),
      (extractContactInfo text conf src).website =
        (websitesOf text).head?.map (fun m => String.mk m)) ∧
    (extractContactInfo "www.example.com" none Source.camera).website =
      some "www.example.com" :=
  ⟨website_eq_first_match, by decide⟩

/-- C4 (counterexample): a keyword hit does not take priority across
lines — on `"Walmart\nacme solutions"` the line `"acme solutions"`
carries a business keyword and stays unclaimed, yet the company field
is the earlier purely positional line `"Walmart"`. -/
theorem c4_counterexample :
    linesOf "Walmart\nacme solutions" = ["Walmart", "acme solutions"] ∧
    nameFind "Walmart\nacme solutions" = none ∧
    companyKw "acme solutions" = true ∧
    companyKw "Walmart" = false ∧
    (extractContactInfo "Walmart\nacme solutions" none Source.camera).company =
      some "Walmart" :=
  ⟨by decide, by decide, by decide, by decide, by decide⟩

/-- C4 (amended): the company candidate is the first remaining line
satisfying keyword-hit OR the positional fallback; the keyword has
priority only within a single line's test, so a chosen line without any
keyword qualified positionally (Title-Case start, index below 5). -/
theorem c4_amended (text : String) (conf : Option Rat) (src : Source) (i : Nat) (l : String)
    (hc : companyFind text = some (i, l)) (hkw : companyKw l = false) :
    testStart properCaseRE (trimL l.data) = true ∧ i < 5 ∧
    (extractContactInfo text conf src).company = some (String.mk (trimL l.data)) := by
  have hpred := findL_pred _ _ _ _ _ hc
  simp only [companyPred] at hpred
  split at hpred
  next => exact absurd hpred (by simp)
  next =>
    split at hpred
    next => exact absurd hpred (by simp)
    next =>
      split at hpred
      next => exact absurd hpred (by simp)
      next =>
        rw [hkw] at hpred
        simp at hpred
        refine ⟨hpred.1, hpred.2, ?_⟩
        show (companyCand text).map (fun s => String.mk (trimL s.data)) = _
        rw [companyCand, hc]
        rfl

/-- C4 (witness): on `"Walmart\nacme solutions"` the chosen company
line `"Walmart"` (index 0) has no keyword and qualified positionally,
by `c4_amended`. -/
theorem c4_amended_witness :
    testStart properCaseRE (trimL "Walmart".data) = true ∧ (0 : Nat) < 5 ∧
    (extractContactInfo "Walmart\nacme solutions" none Source.camera).company =
      some (String.mk (trimL "Walmart".data)) :=
  c4_amended "Walmart\nacme solutions" none Source.camera 0 "Walmart" (by decide) (by decide)

/-- C5: the email field is the earliest email-shaped match of the
normalized text, lower-cased; in particular
`"Contact: JOHN@Example.COM for info"` yields `john@example.com`. -/
theorem c5_email :
    (extractContactInfo "Contact: JOHN@Example.COM for info" none Source.upload).email =
      some "john@example.com" ∧
    ∀ (text : String) (conf : Option Rat) (src : Source),
      (extractContactInfo text conf src).email =
        (emailsOf text).head?.map (fun m => String.mk (lowerL m)) :=
  ⟨by decide, fun _ _ _ => rfl⟩

/-- C6: the input line `"+1 (415) 555-0132"` yields
`phone = "+14155550132"`; and whenever the phone field is set it is a
digit string with at most a single leading `+` (every other character
of the matched candidate is stripped). -/
theorem c6_phone :
    (extractContactInfo "+1 (415) 555-0132" none Source.camera).phone =
      some "+14155550132" ∧
    ∀ (text : String) (conf : Option Rat) (src : Source) (ph : String),
      (extractContactInfo text conf src).phone = some ph →
      ∃ t : List Char, (ph.data = t ∨ ph.data = '+' :: t) ∧ ∀ c ∈ t, isDigitC c = true := by
  refine ⟨by decide, ?_⟩
  intro text conf src ph hph
  have hph' : (phonesOf text).head?.map
      (fun m => String.mk (m.filter (fun c => isDigitC c || c == '+'))) = some ph := hph
  obtain ⟨m, hm, hmk⟩ := Option.map_eq_some'.mp hph'
  have hmb : MatchedBy phoneRE m := (matchAll_mem (firstMem hm)).1
  obtain ⟨t, ht, htd⟩ := phone_shape hmb
  refine ⟨t, ?_, htd⟩
  have hdata : ph.data = m.filter (fun c => isDigitC c || c == '+') := by
    rw [← hmk]
  rw [hdata]
  exact ht

/-- C6 (witness): `c6_phone` instantiated at the concrete scan. -/
theorem c6_phone_witness :
    ∃ t : List Char, ("+14155550132".data = t ∨ "+14155550132".data = '+' :: t) ∧
      ∀ c ∈ t, isDigitC c = true :=
  c6_phone.2 "+1 (415) 555-0132" none Source.camera "+14155550132" (by decide)

/-- C7: when the remote OCR path fails in any way (raised, no data, or
unsuccessful response) and the local engine recognizes text of trimmed
length at least 3, the scan transparently returns the classification of
the local text with confidence `localConfidence/100`. -/
theorem c7_fallback (remote : RemoteOutcome) (t : String) (c : Rat) (src : Source)
    (hfail : RemoteFailed remote)
    (hlen : ¬ (trimL t.data).length < 3) :
    processImage remote (.recognized t c) src =
      .ok (extractContactInfo t (some (c / 100)) src) ∧
    (extractContactInfo t (some (c / 100)) src).confidence = some (c / 100) := by
  refine ⟨?_, rfl⟩
  cases remote with
  | raised => simp [processImage, ocrStage, localStage, hlen]
  | respond d =>
    cases d with
    | none => simp [processImage, ocrStage, localStage, hlen]
    | some dd =>
      have hs : dd.success = false := hfail
      simp [processImage, ocrStage, localStage, hs, hlen]

/-- C7 (witness): a raised remote call with a local recognition of
`"Jane Doe"` at confidence 80, by `c7_fallback`. -/
theorem c7_fallback_witness :
    processImage RemoteOutcome.raised (LocalOutcome.recognized "Jane Doe" 80) Source.camera =
      .ok (extractContactInfo "Jane Doe" (some (80 / 100)) Source.camera) ∧
    (extractContactInfo "Jane Doe" (some (80 / 100)) Source.camera).confidence =
      some (80 / 100) :=
  c7_fallback RemoteOutcome.raised "Jane Doe" 80 Source.camera trivial (by decide)

/-- C8: the classifier is total — as a function it returns a record for
every input; on the empty string and on a non-matching garbage line
every optional field is unset and `rawText` equals the input. -/
theorem c8_never_fails (text : String) (conf : Option Rat) (src : Source) :
    (extractContactInfo text conf src).raw_text = text ∧
    extractContactInfo "" conf src =
      { name := none, phone := none, email := none, company := none, job_title := none,
        website := none, location := none, raw_text := "", source := src,
        confidence := conf } ∧
    extractContactInfo "zzzz" conf src =
      { name := none, phone := none, email := none, company := none, job_title := none,
        website := none, location := none, raw_text := "zzzz", source := src,
        confidence := conf } :=
  ⟨rfl, rfl, rfl⟩

/-- C9: when the remote engine succeeds but its text trims to fewer
than 3 characters, the scan fails with the no-text error and the result
does not depend on the local engine at all — the fallback is never
consulted. -/
theorem c9_short_remote (d : RemoteData) (localFb localFb2 : LocalOutcome) (src : Source)
    (hs : d.success = true)
    (hshort : (trimL d.text.data).length < 3) :
    processImage (.respond (some d)) localFb src = .error .noText ∧
    processImage (.respond (some d)) localFb src =
      processImage (.respond (some d)) localFb2 src := by
  have h1 : ∀ lf, processImage (.respond (some d)) lf src = .error .noText := by
    intro lf
    simp [processImage, ocrStage, hs, hshort]
  exact ⟨h1 localFb, by rw [h1, h1]⟩

/-- C9 (witness): a successful remote response with text `"Hi"`
(trimmed length 2), by `c9_short_remote`. -/
theorem c9_short_remote_witness :
    processImage (.respond (some ⟨true, "Hi", none⟩))
        (.recognized "Some Longer Text" 90) Source.upload = .error .noText ∧
    processImage (.respond (some ⟨true, "Hi", none⟩))
        (.recognized "Some Longer Text" 90) Source.upload =
      processImage (.respond (some ⟨true, "Hi", none⟩)) .raised Source.upload :=
  c9_short_remote ⟨true, "Hi", none⟩ (.recognized "Some Longer Text" 90) .raised
    Source.upload rfl (by decide)

/-- C10 (counterexample): on `"a@mail.example.com"` the email is
extracted with domain portion `mail.example.com` (first label `mail`,
length at least 3, and the earliest website-shaped match starts at it),
yet the website field is `mail.example`, not the domain portion. -/
theorem c10_counterexample :
    (extractContactInfo "a@mail.example.com" none Source.camera).email =
      some "a@mail.example.com" ∧
    matchAll websiteRE (cleanOf "a@mail.example.com") = ["mail.example".data] ∧
    (extractContactInfo "a@mail.example.com" none Source.camera).website =
      some "mail.example" ∧
    (extractContactInfo "a@mail.example.com" none Source.camera).website ≠
      some "mail.example.com" :=
  ⟨by decide, by decide, by decide, by decide⟩

/-- C10 (amended): for every input on which classify extracts an email
and also sets the website field with the earliest website-shaped match
beginning at the email's domain portion and staying within it — the
domain not itself beginning with a case-insensitive `www.` — the
website consists of the domain's first label, the first dot, and a
nonempty alphabetic initial segment of what follows that dot; it
contains exactly one dot, so for a multi-label domain it never equals
the domain portion, while for a single-dot domain it can be the full
domain portion (`a@example.com` gives `example.com`,
`a@mail.example.com` gives `mail.example`). -/
theorem c10_amended :
    (∀ (text : String) (conf : Option Rat) (src : Source) (e w : String)
        (l d d1 d2 : List Char),
      (extractContactInfo text conf src).email = some e →
      (extractContactInfo text conf src).website = some w →
      e.data = l ++ '@' :: d →
      d = d1 ++ '.' :: d2 →
      ('.' : Char) ∉ d1 →
      startsL (lowerL d) "www.".data = false →
      startsL d w.data = true →
      ∃ tld, w.data = d1 ++ '.' :: tld ∧ startsL d2 tld = true ∧ tld ≠ [] ∧
        (∀ ch ∈ tld, isAlphaC ch = true) ∧ w.data.count '.' = 1 ∧
        (('.' : Char) ∈ d2 → w.data ≠ d)) ∧
    (extractContactInfo "a@example.com" none Source.camera).email = some "a@example.com" ∧
    (extractContactInfo "a@example.com" none Source.camera).website = some "example.com" ∧
    (extractContactInfo "a@mail.example.com" none Source.camera).email =
      some "a@mail.example.com" ∧
    (extractContactInfo "a@mail.example.com" none Source.camera).website =
      some "mail.example" := by
  refine ⟨?_, by decide, by decide, by decide, by decide⟩
  intro text conf src e w l d d1 d2 he hw hdom hsplit hd1 hwww hbegin
  have hw' : (websitesOf text).head?.map (fun mm => String.mk (stripScheme mm)) = some w := hw
  obtain ⟨m, hm, hmk⟩ := Option.map_eq_some'.mp hw'
  have hmem : m ∈ matchAll websiteRE (cleanOf text) := firstMem hm
  obtain ⟨hmb, hsub⟩ := matchAll_mem hmem
  have hnc : (':' : Char) ∉ m := fun hc => cleanOf_no_colon text (hsub _ hc)
  have hwdata : w.data = m := by
    rw [← hmk]
    show stripScheme m = m
    exact stripScheme_eq_self hnc
  obtain ⟨pre, lab, tld, hmeq, hprec, hlabne, hlabc, htldne, htldc⟩ := website_shape hmb
  obtain ⟨t, hdt⟩ := (startsL_iff_append d w.data).mp hbegin
  have hprenil : pre = [] := by
    rcases hprec with h | h | ⟨a, b, c, hp, hwa, hwb, hwc⟩
    · exact h
    · exact absurd (by rw [hmeq]; exact List.mem_append_left _ h) hnc
    · exfalso
      have hww : startsL (lowerL d) "www.".data = true := by
        rw [hdt, hwdata, hmeq, hp]
        rw [lowerL, List.map_append, List.map_append]
        have hl : [a, b, c, '.'].map Char.toLower = "www.".data := by
          rw [List.map_cons, List.map_cons, List.map_cons, List.map_cons, List.map_nil,
            hwa, hwb, hwc]
          decide
        rw [hl, List.append_assoc]
        exact startsL_of_append _ _
      rw [hwww] at hww
      exact absurd hww (by simp)
  subst hprenil
  rw [List.nil_append] at hmeq
  have hlabnd : ('.' : Char) ∉ lab := by
    intro hdot
    exact absurd (hlabc '.' hdot) (by decide)
  have hdsplit2 : d1 ++ '.' :: d2 = lab ++ '.' :: (tld ++ t) := by
    rw [← hsplit, hdt, hwdata, hmeq]
    simp
  obtain ⟨hd1lab, hd2⟩ := first_dot_split d1 lab d2 (tld ++ t) hdsplit2 hd1 hlabnd
  refine ⟨tld, ?_, ?_, htldne, htldc, ?_, ?_⟩
  · rw [hwdata, hmeq, hd1lab]
  · rw [hd2]
    exact startsL_of_append _ _
  · have hlab0 : lab.count '.' = 0 := List.count_eq_zero.mpr hlabnd
    have htld0 : tld.count '.' = 0 := List.count_eq_zero.mpr
      (fun hdot => absurd (htldc '.' hdot) (by decide))
    rw [hwdata, hmeq, List.count_append, hlab0, List.count_cons_self, htld0]
  · intro hdotd2 hwd_eq
    have hlen : d.length = d.length + t.length := by
      conv_lhs => rw [hdt]
      rw [List.length_append, hwd_eq]
    have ht0 : t = [] := List.length_eq_zero.mp (by omega)
    rw [ht0, List.append_nil] at hd2
    rw [hd2] at hdotd2
    exact absurd (htldc '.' hdotd2) (by decide)

/-- C10 (witness): `c10_amended` instantiated on `a@mail.example.com`,
whose domain `mail.example.com` is multi-label: the website is
`mail.example` — the first label, the dot, and an alphabetic initial
segment of `example.com` — and differs from the domain portion. -/
theorem c10_amended_witness :
    ∃ tld, "mail.example".data = "mail".data ++ '.' :: tld ∧
      startsL "example.com".data tld = true ∧ tld ≠ [] ∧
      (∀ ch ∈ tld, isAlphaC ch = true) ∧ "mail.example".data.count '.' = 1 ∧
      (('.' : Char) ∈ "example.com".data →
        "mail.example".data ≠ "mail.example.com".data) :=
  c10_amended.1 "a@mail.example.com" none Source.camera "a@mail.example.com" "mail.example"
    "a".data "mail.example.com".data "mail".data "example.com".data
    (by decide) (by decide) (by decide) (by decide) (by decide) (by decide) (by decide)

end Buzz
